import Mathlib

/-!
Verification of the request-serving core of uhttpd (`file.c`): path
canonicalization and lookup, HTTP conditional-request evaluation, directory
listing and the streaming write callback, shallowly embedded over `List Char`
(C strings without the terminating NUL, except where NUL bytes written into a
buffer are themselves significant, in which case `nulChar` appears
explicitly).

External collaborators that live outside `file.c` (libc `strptime`,
`realpath`, `uh_urldecode`, the mimetype table, the filesystem `stat`) are
taken as parameters, modelled from the spec where their behaviour matters.
-/

set_option autoImplicit false

namespace Uhttpd

/-- The NUL byte, used where the C code writes string terminators into a
buffer whose later contents still matter. -/
def nulChar : Char := Char.ofNat 0

/-- Snapshot of the `struct stat` fields that `file.c` consults:
`st_ino`, `st_size`, `st_mtime`, the `S_IFREG`/`S_IFDIR` type bits and the
`S_IROTH`/`S_IXOTH` permission bits. -/
structure Stat where
  st_ino : Nat
  st_size : Nat
  st_mtime : Int
  isReg : Bool
  isDir : Bool
  othRead : Bool
  othExec : Bool
deriving DecidableEq

/-- One lowercase hexadecimal digit, as produced by printf `%x`. -/
def hexDigit (n : Nat) : Char :=
  if n < 10 then Char.ofNat (48 + n) else Char.ofNat (87 + n)

/-- Accumulator loop for `%x` formatting: most significant digit first.
The fuel argument only bounds recursion depth; a 32-bit value has at most
8 hexadecimal digits, so the 32 units supplied by `hexStr` are never
exhausted. -/
def hexAux : Nat → Nat → List Char → List Char
  | 0, _, acc => acc
  | fuel + 1, n, acc =>
    if n < 16 then hexDigit n :: acc
    else hexAux fuel (n / 16) (hexDigit (n % 16) :: acc)

/-- printf `%x` of an `unsigned int`: lowercase hex, no leading zeros
(a single `0` for zero). -/
def hexStr (n : Nat) : List Char := hexAux 32 (n % 2 ^ 32) []

/-- Width of a C pointer on the (64-bit) target: `sizeof(char *)`.
`uh_file_mktag` passes `sizeof(buf)` with `buf` of type `char *` as the
`snprintf` bound, so only this many bytes (including the NUL) are written. -/
def sizeofCharPtr : Nat := 8

/-- The untruncated tag that the `snprintf` format string of
`uh_file_mktag` describes: `"%x-%x-%x"` in quotes over
`(st_ino, st_size, st_mtime)`, each cast to `unsigned int`. -/
def intendedTag (s : Stat) : List Char :=
  ['"'] ++ hexStr s.st_ino ++ ['-'] ++ hexStr s.st_size ++ ['-'] ++
    hexStr ((s.st_mtime.emod (2 ^ 32)).toNat) ++ ['"']

/-- `uh_file_mktag` (file.c:274): `snprintf(buf, sizeof(buf), ...)` over the
quoted hexadecimal triple. Since `buf` is a `char *` parameter,
`sizeof(buf)` is the pointer size, so `snprintf` truncates the tag to
`sizeofCharPtr - 1 = 7` characters. -/
def uh_file_mktag (s : Stat) : List Char :=
  (intendedTag s).take (sizeofCharPtr - 1)

/-- `uh_file_date2unix` (file.c:284): parse the date with
`strptime(date, "%a, %d %b %Y %H:%M:%S %Z", &t)`; on success return
`timegm(&t)`, otherwise return `0`.  `strptime`/`timegm` are libc, taken as
one parameter giving the parsed epoch seconds, `none` when unparsable. -/
def uh_file_date2unix (strptimeGm : List Char → Option Int) (date : List Char) : Int :=
  match strptimeGm date with
  | some t => t
  | none => 0

/-- The conditional request headers `uh_file_data` consults, `none` when the
header is absent from the request. -/
structure Headers where
  if_modified_since : Option (List Char)
  if_unmodified_since : Option (List Char)
  if_match : Option (List Char)
  if_none_match : Option (List Char)
  if_range : Option (List Char)
deriving DecidableEq

/-- `cl->request.method` values distinguished by `file.c`. -/
inductive HttpMethod
  | GET
  | HEAD
  | POST
  | PUT
  | DELETE
deriving DecidableEq

/-- `strlen` on a buffer that may contain interior NUL bytes. -/
def strlenC (l : List Char) : Nat := (l.takeWhile (fun c => decide (c ≠ nulChar))).length

/-- The C string starting at offset `p` of a buffer: characters up to the
first NUL. -/
def cstrAt (l : List Char) (p : Nat) : List Char :=
  (l.drop p).takeWhile (fun c => decide (c ≠ nulChar))

/-- The token-scanning loop shared by `uh_file_if_match` and
`uh_file_if_none_match` (file.c:355-364): walk index `i` while
`i < strlen(hdr)`; at a space or comma overwrite it with NUL, advance `i`
twice (`hdr[i++] = 0` plus the `for` increment) and point `p` past the
separator; at any other character compare the C string at `p` against
`"*"` and the entity tag, returning true on a match; fall off the loop
with false. -/
def matchLoopF (tag : List Char) : Nat → List Char → Nat → Nat → Bool
  | 0, _, _, _ => false
  | fuel + 1, buf, p, i =>
    if i < strlenC buf then
      if buf.get? i = some ' ' ∨ buf.get? i = some ',' then
        matchLoopF tag fuel (buf.set i nulChar) (i + 1) (i + 2)
      else if cstrAt buf p = ['*'] ∨ cstrAt buf p = tag then
        true
      else
        matchLoopF tag fuel buf p (i + 1)
    else
      false

/-- The scanning loop with enough fuel that it always falls off the `for`
condition rather than exhausting the fuel: `i` grows by at least one per
step and the loop stops once `i` reaches `strlen`, which the NUL writes
never increase, so `buf.length + 1` steps always suffice from `i = 0`. -/
def matchLoop (tag : List Char) (buf : List Char) (p i : Nat) : Bool :=
  matchLoopF tag (buf.length + 1 - i) buf p i

/-- `uh_file_if_modified_since` (file.c:370): absent header passes; a
parsed-or-zero date at or after `st_mtime` responds 304 and fails. -/
def uh_file_if_modified_since (sp : List Char → Option Int) (h : Headers) (s : Stat) : Bool :=
  match h.if_modified_since with
  | none => true
  | some v => if s.st_mtime ≤ uh_file_date2unix sp v then false else true

/-- `uh_file_if_match` (file.c:344): absent header passes; otherwise run the
scanning loop against the entity tag, responding 412 when it fails. -/
def uh_file_if_match (s : Stat) (h : Headers) : Bool :=
  match h.if_match with
  | none => true
  | some v => matchLoop (uh_file_mktag s) v 0 0

/-- `uh_file_if_range` (file.c:415): mere presence responds 412. -/
def uh_file_if_range (h : Headers) : Bool :=
  match h.if_range with
  | none => true
  | some _ => false

/-- `uh_file_if_unmodified_since` (file.c:427): present header whose
parsed-or-zero date is at or before `st_mtime` responds 412 and fails. -/
def uh_file_if_unmodified_since (sp : List Char → Option Int) (h : Headers) (s : Stat) : Bool :=
  match h.if_unmodified_since with
  | none => true
  | some v => if uh_file_date2unix sp v ≤ s.st_mtime then false else true

/-- `uh_file_if_none_match` (file.c:385): absent header passes; a match in
the scanning loop responds 304 (GET/HEAD) or 412 (otherwise) and fails. -/
def uh_file_if_none_match (s : Stat) (h : Headers) : Bool :=
  match h.if_none_match with
  | none => true
  | some v => ! matchLoop (uh_file_mktag s) v 0 0

/-- What `uh_file_data` ends up answering for the precondition phase. -/
inductive Outcome
  | ok200
  | notModified304
  | preconditionFailed412
deriving DecidableEq

/-- The precondition phase of `uh_file_data` (file.c:548-559): the short
circuited disjunction
`!ims || !if_match || !if_range || !ius || !inm`, where each failing check
has already emitted its own response (304 for If-Modified-Since; 412 for
If-Match, If-Range, If-Unmodified-Since; 304 or 412 by method for
If-None-Match); all passing leads to the 200 path. -/
def uh_file_data_outcome (sp : List Char → Option Int) (m : HttpMethod)
    (h : Headers) (s : Stat) : Outcome :=
  if uh_file_if_modified_since sp h s = false then Outcome.notModified304
  else if uh_file_if_match s h = false then Outcome.preconditionFailed412
  else if uh_file_if_range h = false then Outcome.preconditionFailed412
  else if uh_file_if_unmodified_since sp h s = false then Outcome.preconditionFailed412
  else if uh_file_if_none_match s h = false then
    (if m = HttpMethod.GET ∨ m = HttpMethod.HEAD then Outcome.notModified304
     else Outcome.preconditionFailed412)
  else Outcome.ok200

/-- Specification-side combinator: result of the first failing check in an
ordered list, `ok200` when none fails. -/
def firstFailure : List (Option Outcome) → Outcome
  | [] => Outcome.ok200
  | none :: rest => firstFailure rest
  | some o :: _ => o

/-- The five precondition checks in the order `uh_file_data` runs them, each
paired with the response it emits when it fails. -/
def checkResults (sp : List Char → Option Int) (m : HttpMethod)
    (h : Headers) (s : Stat) : List (Option Outcome) :=
  [ if uh_file_if_modified_since sp h s then none else some Outcome.notModified304,
    if uh_file_if_match s h then none else some Outcome.preconditionFailed412,
    if uh_file_if_range h then none else some Outcome.preconditionFailed412,
    if uh_file_if_unmodified_since sp h s then none else some Outcome.preconditionFailed412,
    if uh_file_if_none_match s h then none
    else some (if m = HttpMethod.GET ∨ m = HttpMethod.HEAD then Outcome.notModified304
               else Outcome.preconditionFailed412) ]

/-! ### canonpath (file.c:62-112), string-rewrite mode -/

/-- Effect on the output of the backtracking loop
`while ((path_res > path_resolved) && (*--path_res != '/'));` that collapses
`/x/../`: with the output held most-recent-character-first, pop characters up
to and including the nearest `/`. -/
def backtrackRes (acc : List Char) : List Char :=
  (acc.dropWhile (fun c => decide (c ≠ '/'))).drop 1

/-- The normalize loop of `canonpath` (file.c:71-101) over the input with
`i` the offset of the read pointer from the start of `path` (the loop stops
at `PATH_MAX - 2 = 4094`) and `acc` the characters written so far, most
recent first.  At a `/`: skip a repeated `/`; skip `/.` before `/` or end;
collapse `/..` before `/` or end by backtracking the output; otherwise copy
the character. -/
def canonLoopF : Nat → List Char → Nat → List Char → List Char
  | 0, _, _, acc => acc
  | fuel + 1, l, i, acc =>
    match l with
    | [] => acc
    | '/' :: rest =>
      if 4094 ≤ i then acc
      else
        match rest with
        | '/' :: _ => canonLoopF fuel rest (i + 1) acc
        | '.' :: [] => acc
        | '.' :: '/' :: tl2 => canonLoopF fuel ('/' :: tl2) (i + 2) acc
        | '.' :: '.' :: [] => backtrackRes acc
        | '.' :: '.' :: '/' :: tl3 => canonLoopF fuel ('/' :: tl3) (i + 3) (backtrackRes acc)
        | _ => canonLoopF fuel rest (i + 1) ('/' :: acc)
    | c :: rest =>
      if 4094 ≤ i then acc else canonLoopF fuel rest (i + 1) (c :: acc)

/-- The normalize loop with enough fuel never to run out: the read pointer
advances by at least one position per step, so `l.length + 1` steps always
suffice (at fuel 0 the fallback returns the output written so far, exactly
what the loop does on the empty remainder). -/
def canonLoop (l : List Char) (i : Nat) (acc : List Char) : List Char :=
  canonLoopF (l.length + 1) l i acc

/-- The epilogue of `canonpath` (file.c:103-109): drop one trailing `/`
unless the output is just `/` or shorter, and turn an empty output into
`/`. -/
def canonFinish (acc : List Char) : List Char :=
  match acc with
  | [] => ['/']
  | c :: t => if c = '/' ∧ t ≠ [] then t.reverse else (c :: t).reverse

/-- `canonpath` in the default string-rewrite mode. -/
def canonRewrite (path : List Char) : List Char := canonFinish (canonLoop path 0 [])

/-- `canonpath` (file.c:62): `realpath` (libc, a parameter modelled from the
spec as strict symlink-resolving canonicalization that may fail) when
`conf.no_symlinks` is set, otherwise the pure string rewrite, which always
succeeds. -/
def canonpath (no_symlinks : Bool) (realpathFn : List Char → Option (List Char))
    (path : List Char) : Option (List Char) :=
  if no_symlinks then realpathFn path else some (canonRewrite path)

/-! ### uh_path_lookup (file.c:117-251) -/

/-- The `struct path_info` fields set by `uh_path_lookup`; pointer fields
that can remain NULL (as in the redirect branch, which returns the
memset-zeroed struct with only `query`, `stat` and `redirected` filled) are
`Option`. -/
structure PathInfo where
  root : Option (List Char)
  phys : Option (List Char)
  name : Option (List Char)
  info : Option (List Char)
  query : Option (List Char)
  redirected : Bool
  stat : Stat
deriving DecidableEq

/-- The collaborators `uh_path_lookup` consults: the configured document
root and symlink mode, libc `realpath`, `uh_urldecode` (utils.c, a parameter
modelled from the spec: given the space left in `uh_buf`, percent-decode or
fail), the filesystem `stat`, and the registered index file names in
order. -/
structure LookupEnv where
  docroot : List Char
  no_symlinks : Bool
  realpathFn : List Char → Option (List Char)
  urldec : Nat → List Char → Option (List Char)
  fs : List Char → Option Stat
  indexFiles : List (List Char)

/-- The descending scan `for (i = len; i >= 0; i--)` (file.c:168-181): find
the greatest `i` at or below the start index whose character is the NUL
terminator (`i = buf.length`) or `/`; the C loop breaks at the first such
`i` (always `len` itself when the buffer is NUL-terminated there), and
`none` models falling off the loop without a break. -/
def splitLoop (buf : List Char) : Nat → Option Nat
  | 0 => if buf.length = 0 ∨ buf.get? 0 = some '/' then some 0 else none
  | i + 1 =>
    if buf.length = i + 1 ∨ buf.get? (i + 1) = some '/' then some (i + 1)
    else splitLoop buf i

/-- The index-file loop (file.c:232-244): skip names longer than the space
left in the `PATH_MAX` buffer; the first name that stats as a regular file
is appended to the directory path and replaces the stat; otherwise the
directory path and stat are kept. -/
def indexLoop (fs : List Char → Option Stat) (names : List (List Char))
    (physD : List Char) (st : Stat) : List Char × Stat :=
  match names with
  | [] => (physD, st)
  | n :: rest =>
    if 4095 - physD.length < n.length then indexLoop fs rest physD st
    else
      match fs (physD ++ n) with
      | some s => if s.isReg then (physD ++ n, s) else indexLoop fs rest physD st
      | none => indexLoop fs rest physD st

/-- The `"%s%s%s"` tail of the Location header (file.c:222-225): `?` plus
the query string when one was recorded, nothing otherwise. -/
def optQuery : Option (List Char) → List Char
  | some q => '?' :: q
  | none => []

/-- Ensure-trailing-slash step for a directory (file.c:210-215). -/
def mkPhysD (p : List Char) : List Char :=
  if p.getLast? = some '/' then p else p ++ ['/']

/-- `uh_path_lookup` (file.c:117): returns the lookup result (NULL as
`none`) paired with the list of `(status, Location)` responses emitted
during the lookup itself — empty except for the one 302 of the
directory-redirect branch.  Follows the source: split the query at the
first `?`, percent-decode the path part into `uh_buf` after the document
root (no decode at all when `?` is the first character), compute `slash`
from the decoded buffer, canonicalize (the descending scan breaks at the
NUL terminator, so `path_info` is the suffix from the break index), check
containment under the document root, `stat`, then branch on regular file /
directory with redirect or index-file resolution. -/
def uh_path_lookup (env : LookupEnv) (url : List Char) :
    Option PathInfo × List (Nat × List Char) :=
  let pathPart := url.takeWhile (fun c => decide (c ≠ '?'))
  let hasQ := pathPart.length ≠ url.length
  let qstr := url.drop (pathPart.length + 1)
  let query : Option (List Char) := if hasQ ∧ qstr ≠ [] then some qstr else none
  let decodeRes : Option (List Char) :=
    if hasQ then
      if pathPart ≠ [] then env.urldec (4096 - env.docroot.length - 1) pathPart
      else some []
    else env.urldec (4096 - env.docroot.length - 1) url
  match decodeRes with
  | none => (none, [])
  | some dec =>
    let buf := env.docroot ++ dec
    let slash := buf ≠ [] ∧ buf.getLast? = some '/'
    let split :=
      match splitLoop buf (min buf.length 4095) with
      | none => (([] : List Char), ([] : List Char))
      | some i => ((canonpath env.no_symlinks env.realpathFn (buf.take i)).getD [], buf.drop i)
    let phys0 := split.1
    let pinfo := split.2
    if env.docroot.isPrefixOf phys0 ∧
        (phys0.length = env.docroot.length ∨ phys0.get? env.docroot.length = some '/') then
      match env.fs phys0 with
      | none => (none, [])
      | some st =>
        if st.isReg then
          (some ⟨some env.docroot, some phys0, some (phys0.drop env.docroot.length),
                 if pinfo ≠ [] then some pinfo else none, query, false, st⟩, [])
        else if ¬ st.isDir then (none, [])
        else if pinfo ≠ [] then (none, [])
        else
          let physD := mkPhysD phys0
          if ¬ slash then
            (some ⟨none, none, none, none, query, true, st⟩,
             [(302, physD.drop env.docroot.length ++ optQuery query)])
          else
            let idxRes := indexLoop env.fs env.indexFiles physD st
            (some ⟨some env.docroot, some idxRes.1, some (idxRes.1.drop env.docroot.length),
                   none, query, false, idxRes.2⟩, [])
    else (none, [])

/-! ### file_write_cb (file.c:522-541) -/

/-- One result of `read(fd, uh_buf, sizeof(uh_buf))`: the bytes read (empty
at end of file), or a failure, transient (`EINTR`) or not. -/
inductive ReadRes
  | ok (data : List Char)
  | err (is_eintr : Bool)
deriving DecidableEq

/-- Observable actions of the write callback: `uh_chunk_write` with the
signed byte count it was handed, and `uh_request_done`. -/
inductive FwEvent
  | chunk (len : Int)
  | done
deriving DecidableEq

/-- `file_write_cb` (file.c:522): while the output channel holds fewer than
256 queued bytes, read; on `EINTR` retry; on a zero read finalize and stop.
A failed read that is not `EINTR` falls through the `if (!r)` test (r = -1
is nonzero) into `uh_chunk_write(cl, uh_buf, r)` with the negative count.
The supplied list is the sequence of read results; an exhausted list or a
full channel ends the modelled run. -/
def file_write_cb (reads : List ReadRes) (dataBytes : Nat) : List FwEvent :=
  if 256 ≤ dataBytes then []
  else
    match reads with
    | [] => []
    | ReadRes.err true :: rest => file_write_cb rest dataBytes
    | ReadRes.err false :: rest => FwEvent.chunk (-1) :: file_write_cb rest dataBytes
    | ReadRes.ok data :: rest =>
      if data.length = 0 then [FwEvent.done]
      else FwEvent.chunk (Int.ofNat data.length) :: file_write_cb rest (dataBytes + data.length)

/-! ### list_entries (file.c:451-496) -/

/-- One `struct dirent` as `list_entries` sees it: the name and the
`DT_DIR` bit. -/
structure DirEnt where
  name : List Char
  isDir : Bool
deriving DecidableEq

/-- Which other-permission bit the persistent `mode` variable holds:
`S_IXOTH` initially, `S_IROTH` once a non-directory entry has been seen. -/
inductive OthBit
  | exec
  | read
deriving DecidableEq

/-- Test the permission bit of the loop's `mode` variable against a stat. -/
def bitSet (s : Stat) : OthBit → Bool
  | OthBit.exec => s.othExec
  | OthBit.read => s.othRead

/-- One emitted `<li>` of the listing, reduced to the printf arguments that
identify it: the link target `path name suffix`, the displayed name, and
the type string. -/
structure Rendered where
  href : List Char
  label : List Char
  rtype : List Char
deriving DecidableEq

/-- The entry loop of `list_entries` (file.c:463-495) with its persistent
`(suffix, mode, type)` state, which starts as `("/", S_IXOTH, "directory")`
and is overwritten on every non-directory entry (never restored).  Entries
named exactly `.` are skipped; entries whose stat fails are skipped before
the state update; entries failing the current permission bit are skipped
after it; the rest are rendered. -/
def listEntriesGo (fs : List Char → Option Stat) (mime : List Char → List Char)
    (path localp : List Char) :
    List DirEnt → List Char × OthBit × List Char → List Rendered
  | [], _ => []
  | e :: rest, state =>
    if e.name = ['.'] then listEntriesGo fs mime path localp rest state
    else
      match fs (localp ++ e.name) with
      | none => listEntriesGo fs mime path localp rest state
      | some s =>
        let state2 := if e.isDir then state else ([], OthBit.read, mime (localp ++ e.name))
        if bitSet s state2.2.1 then
          ⟨path ++ e.name ++ state2.1, e.name, state2.2.2⟩ ::
            listEntriesGo fs mime path localp rest state2
        else listEntriesGo fs mime path localp rest state2

/-- The initial `type` string of the entry loop. -/
def dirTypeStr : List Char := ['d', 'i', 'r', 'e', 'c', 't', 'o', 'r', 'y']

/-- `list_entries` (file.c:451): `mime` stands for `uh_file_mime_lookup`
over the mimetypes table (mimetypes.h, not part of the core). -/
def list_entries (fs : List Char → Option Stat) (mime : List Char → List Char)
    (path localp : List Char) (ents : List DirEnt) : List Rendered :=
  listEntriesGo fs mime path localp ents (['/'], OthBit.exec, dirTypeStr)

/-! ### Specification-side predicates -/

/-- Split a path into its `/`-separated segments (an empty path has one
empty segment, a leading or trailing `/` contributes an empty segment). -/
def segsOf : List Char → List (List Char)
  | [] => [[]]
  | c :: rest =>
    if c = '/' then [] :: segsOf rest
    else
      match segsOf rest with
      | s :: ss => (c :: s) :: ss
      | [] => [[c]]

/-- A well-formed path segment: nonempty and neither `.` nor `..`. -/
def goodSeg (s : List Char) : Prop := s ≠ [] ∧ s ≠ ['.'] ∧ s ≠ ['.', '.']

instance (s : List Char) : Decidable (goodSeg s) := by
  unfold goodSeg; infer_instance

/-- All segments well formed. -/
def goodSegs (l : List (List Char)) : Prop := ∀ s ∈ l, goodSeg s

instance (l : List (List Char)) : Decidable (goodSegs l) := by
  unfold goodSegs; exact List.decidableBAll _ l

/-- The claim's notion of an already-canonical path: the root `/` itself,
or a path with no `.` or `..` segments, no repeated separators and no
trailing separator (equivalently, after removing one leading `/`, every
`/`-separated segment is nonempty and neither `.` nor `..`). -/
def isCanonicalClaim (p : List Char) : Prop :=
  p = ['/'] ∨ goodSegs (segsOf (if p.head? = some '/' then p.tail else p))

instance (p : List Char) : Decidable (isCanonicalClaim p) := by
  unfold isCanonicalClaim; infer_instance

/-- Character-level condition under which the normalize loop of `canonpath`
copies a `/` verbatim: what follows is not another `/`, not `.` before a
separator or the end, and not `..` before a separator or the end. -/
def sepOK : List Char → Bool
  | '/' :: _ => false
  | '.' :: r2 =>
    (match r2 with
     | [] => false
     | '/' :: _ => false
     | '.' :: r3 =>
       (match r3 with
        | [] => false
        | '/' :: _ => false
        | _ => true)
     | _ => true)
  | _ => true

/-- Every `/` in the string is copied verbatim by the normalize loop. -/
def cleanB : List Char → Bool
  | [] => true
  | c :: rest => if c = '/' then sepOK rest && cleanB rest else cleanB rest

/-- The claim's reading of an `If-Match` value as a comma/space-separated
token list. -/
def specTokensGo : List Char → List Char → List (List Char)
  | [], cur => if cur = [] then [] else [cur.reverse]
  | c :: r, cur =>
    if c = ' ' ∨ c = ',' then
      (if cur = [] then specTokensGo r [] else cur.reverse :: specTokensGo r [])
    else specTokensGo r (c :: cur)

/-- Nonempty comma/space-separated tokens of a header value. -/
def specIfMatchTokens (h : List Char) : List (List Char) := specTokensGo h []

/-! ### Concrete fixtures used by witnesses and counterexamples -/

/-- A regular file stat with small metadata, tag `"1-1-1"`. -/
def statReg : Stat := ⟨1, 1, 1, true, false, true, false⟩

/-- A directory stat. -/
def statDir : Stat := ⟨2, 0, 1, false, true, false, true⟩

/-- A regular-file stat with the same mtime at 5 epoch seconds. -/
def statM5 : Stat := ⟨1, 1, 5, true, false, true, false⟩

/-- Identity percent-decoder (the fixture URLs contain no escapes). -/
def udId : Nat → List Char → Option (List Char) := fun _ s => some s

/-- A `realpath` stub; unused since the fixtures run string-rewrite mode. -/
def rpNone : List Char → Option (List Char) := fun _ => none

/-- Fixture filesystem under document root `/r`. -/
def fsW : List Char → Option Stat := fun p =>
  if p = ['/', 'r', '/', 'f'] then some statReg
  else if p = ['/', 'r', '/', 'd'] then some statDir
  else if p = ['/', 'r'] then some statDir
  else none

/-- Fixture environment with document root `/r`. -/
def envW : LookupEnv := ⟨['/', 'r'], false, rpNone, udId, fsW, []⟩

/-- Fixture filesystem for a document root of `/` with one index file. -/
def fsRoot : List Char → Option Stat := fun p =>
  if p = ['/'] then some statDir
  else if p = ['/', 'i'] then some statReg
  else none

/-- Fixture environment with document root `/` and index file `i`. -/
def envRoot : LookupEnv := ⟨['/'], false, rpNone, udId, fsRoot, [['i']]⟩

/-- A date parser that knows one date string `d`, mapping it to epoch 10. -/
def spW : List Char → Option Int := fun l => if l = ['d'] then some 10 else none

/-- A date parser on which every value is unparsable. -/
def spNone : List Char → Option Int := fun _ => none

/-- Headers with If-Modified-Since `d` and If-Range `r` present. -/
def hdrsIR : Headers := ⟨some ['d'], none, none, none, some ['r']⟩

/-- Headers with only an (unparsable) If-Unmodified-Since present. -/
def hdrsIUS : Headers := ⟨none, some ['g'], none, none, none⟩

/-- Headers with only an (unparsable) If-Modified-Since present. -/
def hdrsIMS : Headers := ⟨some ['g'], none, none, none, none⟩

/-- Headers with only If-Match `x,*` present. -/
def hdrsIM : Headers := ⟨none, none, some ['x', ',', '*'], none, none⟩

/-- Headers with only If-Match `*` present. -/
def hdrsStar : Headers := ⟨none, none, some ['*'], none, none⟩

/-- Stat with a six-hex-digit inode and size 1. -/
def statA : Stat := ⟨11259375, 1, 0, true, false, true, false⟩

/-- Stat identical to `statA` except for its size. -/
def statB : Stat := ⟨11259375, 2, 0, true, false, true, false⟩

/-- Mime-lookup stub for the listing fixtures. -/
def mimeW : List Char → List Char := fun _ => ['o']

/-- Fixture filesystem for a directory listing containing `..` followed by
a regular file `f`. -/
def fsLs : List Char → Option Stat := fun p =>
  if p = ['/', 'r', '/', '.', '.'] then some statDir
  else if p = ['/', 'r', '/', 'f'] then some statReg
  else none

/-- 4095 copies of `a`: a canonical path one character past the
`PATH_MAX - 2` bound of the normalize loop. -/
def longA : List Char := List.replicate 4095 'a'

/-- The lookup result for `/f` under `envW`. -/
def piW : PathInfo :=
  ⟨some ['/', 'r'], some ['/', 'r', '/', 'f'], some ['/', 'f'], none, none, false, statReg⟩

/-- The lookup result for `/` under `envRoot`: the index file `i` resolved
under the root `/`. -/
def piRoot : PathInfo :=
  ⟨some ['/'], some ['/', 'i'], some ['i'], none, none, false, statReg⟩

/-- The partially-populated result of the redirect branch. -/
def piRed : PathInfo := ⟨none, none, none, none, none, true, statDir⟩

/-- The request path `/a/../d`, which canonicalizes to `/d`. -/
def urlTrav : List Char := ['/', 'a', '/', '.', '.', '/', 'd']

/-! ## Helper lemmas -/

theorem strlenC_le_length (l : List Char) : strlenC l ≤ l.length := by
  induction l with
  | nil => simp [strlenC]
  | cons c t ih =>
    by_cases h : c = nulChar
    · rw [strlenC, List.takeWhile_cons_of_neg (by simp [h])]
      simp
    · rw [strlenC, List.takeWhile_cons_of_pos (by simp [h])]
      have := ih
      rw [strlenC] at this
      simp only [List.length_cons]
      omega

theorem strlenC_set_le (l : List Char) (i : Nat) : strlenC (l.set i nulChar) ≤ i := by
  induction l generalizing i with
  | nil => simp [strlenC]
  | cons c t ih =>
    cases i with
    | zero =>
      rw [List.set_cons_zero, strlenC, List.takeWhile_cons_of_neg (by simp)]
      simp
    | succ j =>
      rw [List.set_cons_succ]
      by_cases h : c = nulChar
      · rw [strlenC, List.takeWhile_cons_of_neg (by simp [h])]
        simp
      · rw [strlenC, List.takeWhile_cons_of_pos (by simp [h])]
        have := ih j
        rw [strlenC] at this
        simp only [List.length_cons]
        omega

theorem strlenC_nulfree (l : List Char) (h : nulChar ∉ l) : strlenC l = l.length := by
  induction l with
  | nil => simp [strlenC]
  | cons c t ih =>
    have hc : c ≠ nulChar := fun hc => h (hc ▸ List.mem_cons_self c t)
    have ht : nulChar ∉ t := fun hm => h (List.mem_cons_of_mem c hm)
    rw [strlenC, List.takeWhile_cons_of_pos (by simp [hc])]
    have := ih ht
    rw [strlenC] at this
    simp only [List.length_cons]
    omega

theorem cstrAt_zero_nulfree (l : List Char) (h : nulChar ∉ l) : cstrAt l 0 = l := by
  unfold cstrAt
  rw [List.drop_zero]
  refine List.takeWhile_eq_self_iff.mpr ?_
  intro x hx
  simp only [decide_eq_true_eq]
  exact fun he => h (he ▸ hx)

theorem matchLoopF_exit (tag buf : List Char) (p i fuel : Nat) (h : strlenC buf ≤ i) :
    matchLoopF tag fuel buf p i = false := by
  cases fuel with
  | zero => rfl
  | succ f =>
    rw [matchLoopF]
    simp [Nat.not_lt.mpr h]

theorem matchLoopF_none (tag v : List Char) (hnul : nulChar ∉ v) (hstar : v ≠ ['*'])
    (htag : v ≠ tag) : ∀ (fuel i : Nat), matchLoopF tag fuel v 0 i = false := by
  intro fuel
  induction fuel with
  | zero => intro i; rfl
  | succ f ih =>
    intro i
    rw [matchLoopF]
    by_cases hlt : i < strlenC v
    · rw [if_pos hlt]
      by_cases hsep : v.get? i = some ' ' ∨ v.get? i = some ','
      · rw [if_pos hsep]
        exact matchLoopF_exit tag _ _ _ f (le_trans (strlenC_set_le v i) (by omega))
      · rw [if_neg hsep, cstrAt_zero_nulfree v hnul, if_neg (by simp [hstar, htag])]
        exact ih (i + 1)
    · rw [if_neg hlt]

theorem matchLoop_star (tag : List Char) : matchLoop tag ['*'] 0 0 = true := by
  rw [matchLoop]
  show matchLoopF tag 2 ['*'] 0 0 = true
  rw [matchLoopF]
  rw [if_pos (by decide), if_neg (by decide), if_pos (Or.inl (by decide))]

theorem matchLoop_self (tag : List Char) (hnul : nulChar ∉ tag) (hne : tag ≠ [])
    (hsep : tag.get? 0 ≠ some ' ' ∧ tag.get? 0 ≠ some ',') :
    matchLoop tag tag 0 0 = true := by
  rw [matchLoop]
  have hlen : 0 < tag.length := List.length_pos.mpr hne
  have hfuel : tag.length + 1 - 0 = (tag.length) + 1 := by omega
  rw [hfuel, matchLoopF]
  rw [if_pos (by rw [strlenC_nulfree tag hnul]; omega)]
  rw [if_neg (by simp only [not_or]; exact ⟨hsep.1, hsep.2⟩), cstrAt_zero_nulfree tag hnul]
  rw [if_pos (Or.inr rfl)]

theorem hexAux_mem (c : Char) :
    ∀ (fuel n : Nat) (acc : List Char), c ∈ hexAux fuel n acc →
      c ∈ acc ∨ ∃ m, m < 16 ∧ c = hexDigit m := by
  intro fuel
  induction fuel with
  | zero => intro n acc h; exact Or.inl h
  | succ f ih =>
    intro n acc h
    rw [hexAux] at h
    by_cases hn : n < 16
    · rw [if_pos hn] at h
      rcases List.mem_cons.mp h with h | h
      · exact Or.inr ⟨n, hn, h⟩
      · exact Or.inl h
    · rw [if_neg hn] at h
      rcases ih (n / 16) (hexDigit (n % 16) :: acc) h with h | h
      · rcases List.mem_cons.mp h with h | h
        · exact Or.inr ⟨n % 16, Nat.mod_lt n (by omega), h⟩
        · exact Or.inl h
      · exact Or.inr h

theorem hexStr_mem (c : Char) (n : Nat) (h : c ∈ hexStr n) :
    ∃ m, m < 16 ∧ c = hexDigit m := by
  rcases hexAux_mem c 32 (n % 2 ^ 32) [] h with h | h
  · cases h
  · exact h

theorem hexDigit_good : ∀ m, m < 16 →
    hexDigit m ≠ nulChar ∧ hexDigit m ≠ ' ' ∧ hexDigit m ≠ ',' ∧
    hexDigit m ≠ '"' ∧ hexDigit m ≠ '/' := by decide

theorem uh_file_mktag_chars (s : Stat) (c : Char) (h : c ∈ uh_file_mktag s) :
    c ≠ nulChar ∧ c ≠ ' ' ∧ c ≠ ',' := by
  have hfull : c ∈ intendedTag s := by
    unfold uh_file_mktag at h
    exact List.take_subset _ _ h
  unfold intendedTag at hfull
  simp only [List.mem_append, List.mem_singleton] at hfull
  rcases hfull with (((((h1 | h2) | h3) | h4) | h5) | h6) | h7
  · subst h1; refine ⟨by decide, by decide, by decide⟩
  · rcases hexStr_mem c _ h2 with ⟨m, hm, rfl⟩
    have := hexDigit_good m hm
    exact ⟨this.1, this.2.1, this.2.2.1⟩
  · subst h3; refine ⟨by decide, by decide, by decide⟩
  · rcases hexStr_mem c _ h4 with ⟨m, hm, rfl⟩
    have := hexDigit_good m hm
    exact ⟨this.1, this.2.1, this.2.2.1⟩
  · subst h5; refine ⟨by decide, by decide, by decide⟩
  · rcases hexStr_mem c _ h6 with ⟨m, hm, rfl⟩
    have := hexDigit_good m hm
    exact ⟨this.1, this.2.1, this.2.2.1⟩
  · subst h7; refine ⟨by decide, by decide, by decide⟩

theorem uh_file_mktag_ne_nil (s : Stat) : uh_file_mktag s ≠ [] := by
  unfold uh_file_mktag intendedTag
  simp [sizeofCharPtr, List.singleton_append, List.take_succ_cons]

theorem uh_file_mktag_head (s : Stat) : (uh_file_mktag s).get? 0 = some '"' := by
  unfold uh_file_mktag intendedTag
  simp [sizeofCharPtr, List.singleton_append, List.take_succ_cons]

theorem uh_file_mktag_nulfree (s : Stat) : nulChar ∉ uh_file_mktag s :=
  fun h => (uh_file_mktag_chars s nulChar h).1 rfl

theorem uh_file_mktag_ne_star (s : Stat) : uh_file_mktag s ≠ ['*'] := by
  intro h
  have : (uh_file_mktag s).get? 0 = some '*' := by rw [h]; rfl
  rw [uh_file_mktag_head s] at this
  simp at this

/-! ## Claim theorems: precondition evaluation -/

/-- C6: the precondition phase of `uh_file_data` evaluates exactly the fixed
sequence If-Modified-Since, If-Match, If-Range, If-Unmodified-Since,
If-None-Match; its outcome is that of the first failing check (304 or 412),
later checks being irrelevant, and it reaches the 200 path precisely when
all five checks pass. -/
theorem uh_file_data_order_first_failure (sp : List Char → Option Int)
    (m : HttpMethod) (h : Headers) (s : Stat) :
    uh_file_data_outcome sp m h s = firstFailure (checkResults sp m h s) ∧
    (uh_file_data_outcome sp m h s = Outcome.ok200 ↔
      (uh_file_if_modified_since sp h s = true ∧ uh_file_if_match s h = true ∧
       uh_file_if_range h = true ∧ uh_file_if_unmodified_since sp h s = true ∧
       uh_file_if_none_match s h = true)) := by
  cases h1 : uh_file_if_modified_since sp h s <;>
    cases h2 : uh_file_if_match s h <;>
      cases h3 : uh_file_if_range h <;>
        cases h4 : uh_file_if_unmodified_since sp h s <;>
          cases h5 : uh_file_if_none_match s h <;>
            simp [uh_file_data_outcome, checkResults, firstFailure, h1, h2, h3, h4, h5]
  all_goals by_cases hm : (m = HttpMethod.GET ∨ m = HttpMethod.HEAD) <;> simp [hm]

/-- C2 counterexample: with If-Range present together with an
If-Modified-Since that holds (parsed date 10 at or after mtime 5), the
outcome is 304 Not Modified, not 412. -/
theorem uh_file_data_if_range_not_always_412 :
    hdrsIR.if_range = some ['r'] ∧
    uh_file_data_outcome spW HttpMethod.GET hdrsIR statM5 = Outcome.notModified304 ∧
    Outcome.notModified304 ≠ Outcome.preconditionFailed412 := by decide

/-- C2 (amended): when If-Range is present the request never proceeds to
200: the outcome is 304 when the If-Modified-Since check fails first, and
412 in every other case. -/
theorem uh_file_data_if_range_outcome (sp : List Char → Option Int)
    (m : HttpMethod) (h : Headers) (s : Stat) (v : List Char)
    (hr : h.if_range = some v) :
    uh_file_data_outcome sp m h s =
      (if uh_file_if_modified_since sp h s = false then Outcome.notModified304
       else Outcome.preconditionFailed412) := by
  have hir : uh_file_if_range h = false := by unfold uh_file_if_range; rw [hr]
  cases h1 : uh_file_if_modified_since sp h s <;>
    cases h2 : uh_file_if_match s h <;>
      simp [uh_file_data_outcome, h1, h2, hir]

/-- Witness for C2 (amended) at the fixture request. -/
theorem uh_file_data_if_range_outcome_witness :
    uh_file_data_outcome spW HttpMethod.GET hdrsIR statM5 =
      (if uh_file_if_modified_since spW hdrsIR statM5 = false then Outcome.notModified304
       else Outcome.preconditionFailed412) :=
  uh_file_data_if_range_outcome spW HttpMethod.GET hdrsIR statM5 ['r'] rfl

/-- C3 counterexample: an If-Unmodified-Since value that does not parse is
not treated as absent: `uh_file_date2unix` yields epoch 0, `0 <= mtime`
holds for mtime 5, and the outcome is 412, not Proceed. -/
theorem uh_file_unparsable_ius_412 :
    spNone ['g'] = none ∧
    uh_file_if_unmodified_since spNone hdrsIUS statM5 = false ∧
    uh_file_data_outcome spNone HttpMethod.GET hdrsIUS statM5 =
      Outcome.preconditionFailed412 := by decide

/-- C3 (amended): an unparsable conditional date is parsed as epoch 0, not
treated as absent: If-Modified-Since with an unparsable value proceeds
exactly when the file's mtime is positive (304 otherwise), and
If-Unmodified-Since with an unparsable value answers 412 exactly when the
mtime is at least 0 (proceeding only for negative mtimes). -/
theorem uh_file_unparsable_date_outcomes (sp : List Char → Option Int)
    (s : Stat) (v : List Char) (h h' : Headers) (hp : sp v = none)
    (h1 : h.if_modified_since = some v) (h2 : h'.if_unmodified_since = some v) :
    (uh_file_if_modified_since sp h s = true ↔ 0 < s.st_mtime) ∧
    (uh_file_if_unmodified_since sp h' s = false ↔ 0 ≤ s.st_mtime) := by
  constructor
  · unfold uh_file_if_modified_since uh_file_date2unix
    rw [h1]
    dsimp only
    rw [hp]
    by_cases hc : s.st_mtime ≤ (0 : Int) <;> simp [hc]
    all_goals omega
  · unfold uh_file_if_unmodified_since uh_file_date2unix
    rw [h2]
    dsimp only
    rw [hp]
    by_cases hc : (0 : Int) ≤ s.st_mtime <;> simp [hc]

/-- Witness for C3 (amended) at the fixture request. -/
theorem uh_file_unparsable_date_outcomes_witness :
    (uh_file_if_modified_since spNone hdrsIMS statM5 = true ↔ 0 < statM5.st_mtime) ∧
    (uh_file_if_unmodified_since spNone hdrsIUS statM5 = false ↔ 0 ≤ statM5.st_mtime) :=
  uh_file_unparsable_date_outcomes spNone statM5 ['g'] hdrsIMS hdrsIUS rfl rfl rfl

/-- C4: evaluating `uh_file_mktag` at the failing input: two stats that
agree on inode and mtime but differ in size receive the same (truncated)
entity tag, though the intended untruncated quoted triple distinguishes
them. -/
theorem uh_file_mktag_truncation_collision :
    statA.st_ino = statB.st_ino ∧ statA.st_mtime = statB.st_mtime ∧
    statA.st_size ≠ statB.st_size ∧
    uh_file_mktag statA = uh_file_mktag statB ∧
    intendedTag statA ≠ intendedTag statB := by decide

/-- C7 counterexample: `x,*` read as a comma/space-separated list contains
the wildcard member `*`, yet the If-Match check fails and the outcome is
412: the scanning loop never reaches tokens after the first separator. -/
theorem uh_file_if_match_list_star_fails :
    ['*'] ∈ specIfMatchTokens ['x', ',', '*'] ∧
    uh_file_if_match statReg hdrsIM = false ∧
    uh_file_data_outcome spNone HttpMethod.GET hdrsIM statReg =
      Outcome.preconditionFailed412 := by decide

/-- C7 (amended): the If-Match check treats the header as a single opaque
value: it passes exactly when the whole value is `*` or the whole value
equals the entity tag; any other value — in particular any comma or
space-separated list of several tokens, whatever its members — yields
412. -/
theorem uh_file_if_match_whole_value (s : Stat) (h : Headers) (v : List Char)
    (hm : h.if_match = some v) (hnul : nulChar ∉ v) :
    uh_file_if_match s h = true ↔ (v = ['*'] ∨ v = uh_file_mktag s) := by
  unfold uh_file_if_match
  rw [hm]
  constructor
  · intro ht
    by_contra hc
    push_neg at hc
    have hfalse : matchLoop (uh_file_mktag s) v 0 0 = false := by
      unfold matchLoop
      exact matchLoopF_none (uh_file_mktag s) v hnul hc.1 hc.2 _ 0
    simp only [hfalse] at ht
    exact Bool.false_ne_true ht
  · rintro (rfl | rfl)
    · exact matchLoop_star _
    · exact matchLoop_self (uh_file_mktag s) (uh_file_mktag_nulfree s)
        (uh_file_mktag_ne_nil s)
        ⟨by intro hq; rw [uh_file_mktag_head] at hq; simp at hq,
         by intro hq; rw [uh_file_mktag_head] at hq; simp at hq⟩

/-- Witness for C7 (amended): the wildcard header passes. -/
theorem uh_file_if_match_whole_value_witness :
    uh_file_if_match statReg hdrsStar = true ↔
      (['*'] = ['*'] ∨ ['*'] = uh_file_mktag statReg) :=
  uh_file_if_match_whole_value statReg hdrsStar ['*'] rfl (by decide)

/-! ## canonpath lemmas -/

theorem canonLoopF_copy (fuel : Nat) (l : List Char) (i : Nat) (acc : List Char) :
    l.length < fuel → cleanB l = true → i + l.length ≤ 4094 →
    canonLoopF fuel l i acc = l.reverse ++ acc := by
  induction fuel, l, i, acc using canonLoopF.induct with
  | case1 x x1 acc =>
    intro h1 _ _
    omega
  | case2 fuel i acc =>
    intro _ _ _
    simp [canonLoopF]
  | case3 fuel i acc rest hi =>
    intro _ _ h3
    simp only [List.length_cons] at h3
    omega
  | case4 fuel i acc hi tl ih =>
    intro _ h2 _
    simp [cleanB, sepOK] at h2
  | case5 fuel i acc hi =>
    intro _ h2 _
    simp [cleanB, sepOK] at h2
  | case6 fuel i acc hi tl2 ih =>
    intro _ h2 _
    simp [cleanB, sepOK] at h2
  | case7 fuel i acc hi =>
    intro _ h2 _
    simp [cleanB, sepOK] at h2
  | case8 fuel i acc hi tl3 ih =>
    intro _ h2 _
    simp [cleanB, sepOK] at h2
  | case9 fuel i acc rest hi hn1 hn2 hn3 hn4 hn5 ih =>
    intro h1 h2 h3
    have h2' : sepOK rest = true ∧ cleanB rest = true := by
      simpa [cleanB] using h2
    have hstep : canonLoopF (fuel + 1) ('/' :: rest) i acc =
        canonLoopF fuel rest (i + 1) ('/' :: acc) := by
      rw [canonLoopF.eq_def]
      dsimp only
      split
      · rename_i heq
        exact absurd heq (by simp)
      · rename_i r heq
        simp only [List.cons.injEq, true_and] at heq
        subst heq
        rw [if_neg hi]
        split
        all_goals try rfl
        all_goals simp_all
      · rename_i c r hne heq
        simp only [List.cons.injEq] at heq
        exact (hne heq.1.symm).elim
    rw [hstep]
    simp only [List.length_cons] at h1 h3
    rw [ih (by omega) h2'.2 (by omega)]
    simp
  | case10 fuel i acc c rest hc hi =>
    intro _ _ h3
    simp only [List.length_cons] at h3
    omega
  | case11 fuel i acc c rest hc hi ih =>
    intro h1 h2 h3
    have hc' : c ≠ '/' := fun he => hc he
    have hstep : canonLoopF (fuel + 1) (c :: rest) i acc =
        canonLoopF fuel rest (i + 1) (c :: acc) := by
      simp [canonLoopF, hc', hi]
    have h2' : cleanB rest = true := by
      simpa [cleanB, hc'] using h2
    rw [hstep]
    simp only [List.length_cons] at h1 h3
    rw [ih (by omega) h2' (by omega)]
    simp

theorem segsOf_ne_nil (q : List Char) : segsOf q ≠ [] := by
  induction q with
  | nil => simp [segsOf]
  | cons c rest ih =>
    rw [segsOf]
    by_cases hc : c = '/'
    · simp [hc]
    · rcases hs : segsOf rest with _ | ⟨s, ss⟩
      · exact absurd hs ih
      · simp [hc, hs]

theorem goodSegs_tail {l : List (List Char)} (h : goodSegs l) : goodSegs l.tail :=
  fun t ht => h t (List.mem_of_mem_tail ht)

theorem segsOf_cons_ne (c : Char) (rest : List Char) (hc : c ≠ '/') (s : List Char)
    (ss : List (List Char)) (hs : segsOf rest = s :: ss) :
    segsOf (c :: rest) = (c :: s) :: ss := by
  rw [segsOf, if_neg hc, hs]

theorem cleanB_of_segs (q : List Char) :
    (goodSegs (segsOf q) → cleanB ('/' :: q) = true) ∧
    (goodSegs ((segsOf q).tail) → cleanB q = true) := by
  induction q with
  | nil =>
    constructor
    · intro h
      exact absurd ((h [] (by simp [segsOf])).1) (by simp)
    · intro _
      rfl
  | cons c rest ih =>
    by_cases hc : c = '/'
    · subst hc
      constructor
      · intro h
        have : goodSeg [] := h [] (by rw [segsOf]; simp)
        exact absurd this.1 (by simp)
      · intro h
        rw [segsOf] at h
        simp only [if_pos rfl, List.tail_cons] at h
        exact ih.1 h
    · obtain ⟨s, ss, hs⟩ : ∃ s ss, segsOf rest = s :: ss := by
        rcases hx : segsOf rest with _ | ⟨s, ss⟩
        · exact absurd hx (segsOf_ne_nil rest)
        · exact ⟨s, ss, rfl⟩
      have hcs := segsOf_cons_ne c rest hc s ss hs
      constructor
      · intro h
        have hgood : goodSeg (c :: s) := h _ (by rw [hcs]; exact List.mem_cons_self _ _)
        have hss : goodSegs ss := fun t ht => h t (by rw [hcs]; exact List.mem_cons_of_mem _ ht)
        have hcr : cleanB rest = true := ih.2 (by rw [hs]; exact hss)
        have hcb : cleanB (c :: rest) = true := by
          simpa [cleanB, hc] using hcr
        have hsep : sepOK (c :: rest) = true := by
          by_cases hdot : c = '.'
          · subst hdot
            rcases rest with _ | ⟨c2, rest2⟩
            · exfalso
              rw [show segsOf [] = [[]] from rfl] at hs
              injection hs with hs1 hs2
              subst hs1
              exact hgood.2.1 rfl
            · by_cases h2 : c2 = '/'
              · exfalso
                subst h2
                rw [segsOf, if_pos rfl] at hs
                injection hs with hs1 hs2
                subst hs1
                exact hgood.2.1 rfl
              · by_cases h3 : c2 = '.'
                · subst h3
                  rcases rest2 with _ | ⟨c3, rest3⟩
                  · exfalso
                    rw [show segsOf ['.'] = [['.']] from rfl] at hs
                    injection hs with hs1 hs2
                    subst hs1
                    exact hgood.2.2 rfl
                  · by_cases h4 : c3 = '/'
                    · exfalso
                      subst h4
                      rw [segsOf, if_neg (by decide), segsOf, if_pos rfl] at hs
                      dsimp only at hs
                      injection hs with hs1 hs2
                      subst hs1
                      exact hgood.2.2 rfl
                    · simp [sepOK, h4]
                · simp [sepOK, h2, h3]
          · rw [sepOK.eq_def]
            split
            · rename_i heq
              simp only [List.cons.injEq] at heq
              exact absurd heq.1 hc
            · rename_i heq
              simp only [List.cons.injEq] at heq
              exact absurd heq.1 hdot
            · rfl
        simp [cleanB, hsep, hcb, hc, hcr]
      · intro h
        rw [hcs] at h
        simp only [List.tail_cons] at h
        have := ih.2 (by rw [hs]; simpa using h)
        simpa [cleanB, hc] using this

theorem getLast_ne_slash (q : List Char) (h : goodSegs ((segsOf q).tail))
    (hne : q ≠ []) : q.getLast? ≠ some '/' := by
  induction q with
  | nil => exact absurd rfl hne
  | cons c rest ih =>
    rcases rest with _ | ⟨c2, rest2⟩
    · intro hlast
      simp only [List.getLast?_singleton, Option.some.injEq] at hlast
      subst hlast
      rw [segsOf] at h
      simp only [if_pos rfl, List.tail_cons] at h
      have : goodSeg [] := h [] (by rw [show segsOf [] = [[]] from rfl]; simp)
      exact absurd this.1 (by simp)
    · rw [List.getLast?_cons_cons]
      apply ih ?_ (by simp)
      by_cases hc : c = '/'
      · subst hc
        rw [segsOf] at h
        simp only [if_pos rfl, List.tail_cons] at h
        exact goodSegs_tail h
      · obtain ⟨s, ss, hs⟩ : ∃ s ss, segsOf (c2 :: rest2) = s :: ss := by
          rcases hx : segsOf (c2 :: rest2) with _ | ⟨s, ss⟩
          · exact absurd hx (segsOf_ne_nil _)
          · exact ⟨s, ss, rfl⟩
        rw [segsOf_cons_ne c _ hc s ss hs] at h
        rw [hs]
        simpa using h

theorem canonRewrite_eq_of_clean (p : List Char) (hne : p ≠ [])
    (hclean : cleanB p = true) (hlen : p.length ≤ 4094)
    (hlast : p.getLast? ≠ some '/') : canonRewrite p = p := by
  unfold canonRewrite canonLoop
  rw [canonLoopF_copy (p.length + 1) p 0 [] (by omega) hclean (by omega)]
  rw [List.append_nil]
  obtain ⟨c, t, hrev⟩ : ∃ c t, p.reverse = c :: t := by
    rcases hx : p.reverse with _ | ⟨c, t⟩
    · exact absurd (by simpa using congrArg List.reverse hx) hne
    · exact ⟨c, t, rfl⟩
  have hc : c ≠ '/' := by
    intro hcc
    apply hlast
    rw [← List.head?_reverse, hrev, hcc]
    rfl
  rw [hrev, canonFinish]
  rw [if_neg (by simp [hc])]
  rw [← hrev, List.reverse_reverse]

/-- C8 (amended): `canonpath` in string-rewrite mode is a no-op on every
already-canonical path (no `.` or `..` segments, no repeated separators, no
trailing separator except the root itself) whose length is within the
`PATH_MAX - 2` bound of the normalize loop. -/
theorem canonRewrite_idempotent (p : List Char) (hca : isCanonicalClaim p)
    (hlen : p.length ≤ 4094) : canonRewrite p = p := by
  rcases hca with rfl | hgood
  · decide
  · by_cases hh : p.head? = some '/'
    · obtain ⟨q, rfl⟩ : ∃ q, p = '/' :: q := by
        rcases p with _ | ⟨c, q⟩
        · simp at hh
        · simp only [List.head?_cons, Option.some.injEq] at hh
          exact ⟨q, by rw [hh]⟩
      rw [if_pos hh] at hgood
      simp only [List.tail_cons] at hgood
      have hq_ne : q ≠ [] := by
        rintro rfl
        have : goodSeg [] := hgood [] (by rw [show segsOf [] = [[]] from rfl]; simp)
        exact absurd this.1 (by simp)
      apply canonRewrite_eq_of_clean _ (by simp) ((cleanB_of_segs q).1 hgood) hlen
      rcases q with _ | ⟨c2, q2⟩
      · exact absurd rfl hq_ne
      · rw [List.getLast?_cons_cons]
        exact getLast_ne_slash _ (goodSegs_tail hgood) (by simp)
    · rw [if_neg hh] at hgood
      have hp_ne : p ≠ [] := by
        rintro rfl
        have : goodSeg [] := hgood [] (by rw [show segsOf [] = [[]] from rfl]; simp)
        exact absurd this.1 (by simp)
      exact canonRewrite_eq_of_clean p hp_ne ((cleanB_of_segs p).2 (goodSegs_tail hgood))
        hlen (getLast_ne_slash p (goodSegs_tail hgood) hp_ne)

/-- Witness for C8 (amended) at the canonical path `/a`. -/
theorem canonRewrite_idempotent_witness :
    canonRewrite ['/', 'a'] = ['/', 'a'] :=
  canonRewrite_idempotent ['/', 'a'] (by decide) (by norm_num)

theorem canonLoopF_stop (fuel : Nat) (l : List Char) (i : Nat) (acc : List Char)
    (hi : 4094 ≤ i) : canonLoopF fuel l i acc = acc := by
  cases fuel with
  | zero => rfl
  | succ f =>
    rw [canonLoopF.eq_def]
    dsimp only
    split
    · rfl
    · rw [if_pos hi]
    · rw [if_pos hi]

theorem canonLoopF_step_other (fuel : Nat) (c : Char) (rest : List Char) (i : Nat)
    (acc : List Char) (hc : c ≠ '/') (hi : ¬ 4094 ≤ i) :
    canonLoopF (fuel + 1) (c :: rest) i acc = canonLoopF fuel rest (i + 1) (c :: acc) := by
  rw [canonLoopF.eq_def]
  dsimp only
  split
  · rename_i heq
    exact absurd heq (by simp)
  · rename_i r heq
    simp only [List.cons.injEq] at heq
    exact absurd heq.1 hc
  · rename_i c' r hne heq
    simp only [List.cons.injEq] at heq
    obtain ⟨rfl, rfl⟩ := heq
    rw [if_neg hi]

theorem canonLoopF_replicate :
    ∀ (fuel n i : Nat) (acc : List Char), n < fuel → i ≤ 4094 →
      canonLoopF fuel (List.replicate n 'a') i acc =
        List.replicate (min n (4094 - i)) 'a' ++ acc := by
  intro fuel
  induction fuel with
  | zero => intro n i acc h _; omega
  | succ f ih =>
    intro n i acc hn hi
    cases n with
    | zero =>
      simp only [List.replicate_zero, Nat.zero_min, List.nil_append]
      rfl
    | succ m =>
      rw [List.replicate_succ]
      by_cases h4 : 4094 ≤ i
      · rw [canonLoopF_stop _ _ _ _ h4]
        have hm : min (m + 1) (4094 - i) = 0 := by omega
        rw [hm, List.replicate_zero, List.nil_append]
      · rw [canonLoopF_step_other f 'a' (List.replicate m 'a') i acc (by decide) h4,
          ih m (i + 1) ('a' :: acc) (by omega) (by omega)]
        rw [show ('a' :: acc) = ['a'] ++ acc from rfl, ← List.append_assoc,
          ← List.replicate_succ']
        have harith : min m (4094 - (i + 1)) + 1 = min (m + 1) (4094 - i) := by omega
        rw [harith]

theorem segsOf_replicate (n : Nat) : segsOf (List.replicate n 'a') = [List.replicate n 'a'] := by
  induction n with
  | zero => rfl
  | succ m ih =>
    rw [List.replicate_succ, segsOf, if_neg (by decide), ih]

/-- C8 counterexample: the all-`a` path of length 4095 is canonical in the
claim's sense, yet the normalize loop stops at offset `PATH_MAX - 2 = 4094`
and returns only its first 4094 characters, so canonicalization is not a
no-op on it. -/
theorem canonRewrite_not_idempotent_beyond_bound :
    isCanonicalClaim longA ∧ canonRewrite longA ≠ longA := by
  constructor
  · right
    rw [if_neg (by rw [longA, List.head?_replicate]; decide)]
    rw [longA, segsOf_replicate]
    intro s hs
    rw [List.mem_singleton.mp hs]
    refine ⟨?_, ?_, ?_⟩ <;>
      (intro h; apply_fun List.length at h;
       simp only [List.length_replicate, List.length_nil, List.length_cons] at h)
    all_goals omega
  · have hres : canonRewrite longA = List.replicate 4094 'a' := by
      unfold canonRewrite canonLoop longA
      rw [List.length_replicate]
      rw [canonLoopF_replicate (4095 + 1) 4095 0 [] (by omega) (by omega)]
      rw [List.append_nil]
      have hmin : min 4095 (4094 - 0) = 4094 := by omega
      rw [hmin]
      rw [show (4094 : Nat) = 4093 + 1 from rfl, List.replicate_succ, canonFinish]
      rw [if_neg (fun hcontra => absurd hcontra.1 (by decide))]
      rw [← List.replicate_succ, List.reverse_replicate]
    rw [hres, longA]
    intro h
    apply_fun List.length at h
    rw [List.length_replicate, List.length_replicate] at h
    omega

/-! ## uh_path_lookup lemmas -/

theorem isPrefixOf_exists : ∀ (d l : List Char), d.isPrefixOf l = true → ∃ t, l = d ++ t := by
  intro d
  induction d with
  | nil => exact fun l _ => ⟨l, rfl⟩
  | cons c dt ih =>
    intro l h
    cases l with
    | nil => simp [List.isPrefixOf] at h
    | cons x xt =>
      rw [List.isPrefixOf] at h
      simp only [Bool.and_eq_true, beq_iff_eq] at h
      obtain ⟨rfl, h2⟩ := h
      obtain ⟨t, rfl⟩ := ih xt h2
      exact ⟨t, rfl⟩

theorem indexLoop_extends (fs : List Char → Option Stat) (names : List (List Char))
    (pd : List Char) (st : Stat) : ∃ t, (indexLoop fs names pd st).1 = pd ++ t := by
  induction names with
  | nil => exact ⟨[], by simp [indexLoop]⟩
  | cons n rest ih =>
    rw [indexLoop]
    by_cases h1 : 4095 - pd.length < n.length
    · rw [if_pos h1]
      exact ih
    · rw [if_neg h1]
      rcases hfs : fs (pd ++ n) with _ | s

      · exact ih
      · by_cases hr : s.isReg
        · simp only [hr, if_pos]
          exact ⟨n, rfl⟩
        · simp only [hr, if_neg]
          exact ih

theorem mkPhysD_getLast (p : List Char) : (mkPhysD p).getLast? = some '/' := by
  unfold mkPhysD
  by_cases h : p.getLast? = some '/'
  · rw [if_pos h]
    exact h
  · rw [if_neg h]
    exact List.getLast?_concat p

theorem contain_of_check (d p : List Char)
    (h1 : d.isPrefixOf p = true)
    (h2 : p.length = d.length ∨ p.get? d.length = some '/') :
    p = d ∨ ∃ t1, p = d ++ '/' :: t1 := by
  obtain ⟨t, rfl⟩ := isPrefixOf_exists d _ h1
  rcases h2 with h2 | h2
  · left
    rw [List.length_append] at h2
    have ht : t = [] := List.length_eq_zero.mp (by omega)
    rw [ht, List.append_nil]
  · right
    rw [List.get?_eq_getElem?, List.getElem?_append_right (le_refl d.length),
      Nat.sub_self, ← List.get?_eq_getElem?] at h2
    cases t with
    | nil => simp at h2
    | cons c t1 =>
      simp only [List.get?_cons_zero, Option.some.injEq] at h2
      exact ⟨t1, by rw [h2]⟩

theorem contain_extend (d p n : List Char)
    (hcon : p = d ∨ ∃ t1, p = d ++ '/' :: t1) :
    ∃ t, mkPhysD p ++ n = d ++ t ∧
      (t = [] ∨ t.head? = some '/' ∨ d.getLast? = some '/') := by
  have hmk : mkPhysD p = p ∨ mkPhysD p = p ++ ['/'] := by
    unfold mkPhysD
    by_cases h : p.getLast? = some '/'
    · rw [if_pos h]; exact Or.inl rfl
    · rw [if_neg h]; exact Or.inr rfl
  rcases hcon with rfl | ⟨t1, rfl⟩
  · by_cases hd : p.getLast? = some '/'
    · rw [show mkPhysD p = p from by unfold mkPhysD; rw [if_pos hd]]
      exact ⟨n, rfl, Or.inr (Or.inr hd)⟩
    · rw [show mkPhysD p = p ++ ['/'] from by unfold mkPhysD; rw [if_neg hd]]
      exact ⟨'/' :: n, by simp, Or.inr (Or.inl rfl)⟩
  · rcases hmk with hmk | hmk
    · rw [hmk, List.append_assoc]
      exact ⟨'/' :: t1 ++ n, by simp, Or.inr (Or.inl rfl)⟩
    · rw [hmk]
      refine ⟨'/' :: (t1 ++ ['/'] ++ n), by simp, Or.inr (Or.inl rfl)⟩

theorem uh_path_lookup_shape (env : LookupEnv) (url : List Char)
    (res : Option PathInfo) (evs : List (Nat × List Char))
    (h : uh_path_lookup env url = (res, evs)) :
    (res = none ∧ evs = []) ∨
    (∃ pi phys0 st,
      res = some pi ∧
      env.docroot.isPrefixOf phys0 = true ∧
      (phys0.length = env.docroot.length ∨ phys0.get? env.docroot.length = some '/') ∧
      env.fs phys0 = some st ∧
      ((pi.redirected = false ∧ evs = [] ∧ pi.stat = st ∧ st.isReg = true ∧
          pi.phys = some phys0) ∨
       (pi.redirected = false ∧ evs = [] ∧ st.isReg = false ∧ st.isDir = true ∧
          ∃ pf, indexLoop env.fs env.indexFiles (mkPhysD phys0) st = (pf, pi.stat) ∧
            pi.phys = some pf) ∨
       (pi.redirected = true ∧ pi.stat = st ∧ st.isReg = false ∧ st.isDir = true ∧
          pi.phys = none ∧
          evs = [(302, (mkPhysD phys0).drop env.docroot.length ++ optQuery pi.query)]))) := by
  simp only [uh_path_lookup] at h
  split at h
  · injection h with h1 h2
    exact Or.inl ⟨h1.symm, h2.symm⟩
  · split at h
    · rename_i hcheck
      split at h
      · injection h with h1 h2
        exact Or.inl ⟨h1.symm, h2.symm⟩
      · rename_i st hfs
        split at h
        · rename_i hreg
          injection h with h1 h2
          refine Or.inr ⟨_, _, st, h1.symm, hcheck.1, hcheck.2, hfs, Or.inl ?_⟩
          exact ⟨rfl, h2.symm, rfl, hreg, rfl⟩
        · rename_i hreg
          split at h
          · injection h with h1 h2
            exact Or.inl ⟨h1.symm, h2.symm⟩
          · rename_i hdir
            split at h
            · injection h with h1 h2
              exact Or.inl ⟨h1.symm, h2.symm⟩
            · split at h
              · injection h with h1 h2
                refine Or.inr ⟨_, _, st, h1.symm, hcheck.1, hcheck.2, hfs, Or.inr (Or.inr ?_)⟩
                refine ⟨rfl, rfl, ?_, ?_, rfl, h2.symm⟩
                · simpa using hreg
                · simpa using hdir
              · injection h with h1 h2
                refine Or.inr ⟨_, _, st, h1.symm, hcheck.1, hcheck.2, hfs, Or.inr (Or.inl ?_)⟩
                refine ⟨rfl, h2.symm, by simpa using hreg, by simpa using hdir, ?_⟩
                exact ⟨_, rfl, rfl⟩
    · injection h with h1 h2
      exact Or.inl ⟨h1.symm, h2.symm⟩

/-- C1 (amended): whatever the inputs — URL, decoder, filesystem, symlink
mode, index files — every physical path carried by a returned lookup result
has the configured document root as a prefix, and when the root does not
itself end in a separator the remainder is empty or begins with one; the
path never lies outside the root.  (When the root ends with a separator, as
for a document root of `/`, an index-file path extends it directly, so the
separator-bounded form of the invariant must except that case.) -/
theorem uh_path_lookup_containment (env : LookupEnv) (url : List Char)
    (res : Option PathInfo) (evs : List (Nat × List Char)) (pi : PathInfo)
    (s : List Char) (h : uh_path_lookup env url = (res, evs))
    (hres : res = some pi) (hphys : pi.phys = some s) :
    ∃ t, s = env.docroot ++ t ∧
      (t = [] ∨ t.head? = some '/' ∨ env.docroot.getLast? = some '/') := by
  rcases uh_path_lookup_shape env url res evs h with ⟨hnone, _⟩ | ⟨pi', phys0, st, hsome, hpre, hbound, hfs, hbr⟩
  · rw [hres] at hnone
    cases hnone
  · rw [hres] at hsome
    injection hsome with hpi
    subst hpi
    have hcon := contain_of_check env.docroot phys0 hpre hbound
    rcases hbr with ⟨_, _, _, _, hphys'⟩ | ⟨_, _, _, _, pf, hidx, hphys'⟩ | ⟨_, _, _, _, hphys', _⟩
    · rw [hphys'] at hphys
      injection hphys with hs
      subst hs
      rcases hcon with rfl | ⟨t1, rfl⟩
      · exact ⟨[], by simp, Or.inl rfl⟩
      · exact ⟨'/' :: t1, rfl, Or.inr (Or.inl rfl)⟩
    · rw [hphys'] at hphys
      injection hphys with hs
      subst hs
      obtain ⟨text, hext⟩ := indexLoop_extends env.fs env.indexFiles (mkPhysD phys0) st
      have hpf : pf = mkPhysD phys0 ++ text := by
        have := congrArg Prod.fst hidx
        simp only at this
        rw [← this, hext]
      subst hpf
      exact contain_extend env.docroot phys0 text hcon
    · rw [hphys'] at hphys
      cases hphys

/-- Witness for C1 (amended): the lookup of `/f` under document root `/r`
returns physical path `/r/f`, inside the root. -/
theorem uh_path_lookup_containment_witness :
    ∃ t, ['/', 'r', '/', 'f'] = envW.docroot ++ t ∧
      (t = [] ∨ t.head? = some '/' ∨ envW.docroot.getLast? = some '/') :=
  uh_path_lookup_containment envW ['/', 'f'] (some piW) [] piW ['/', 'r', '/', 'f']
    (by decide) rfl rfl

/-- C1 counterexample: with document root `/` (a root that ends in the
separator) and index file `i`, the lookup of `/` returns physical path
`/i`, which neither equals the root nor has the root followed by a
separator as a prefix, so the claim's stated invariant fails as written —
even though the path is inside the root. -/
theorem uh_path_lookup_containment_cex :
    (uh_path_lookup envRoot ['/']).1 = some piRoot ∧
    piRoot.phys = some ['/', 'i'] ∧
    ¬(['/', 'i'] = envRoot.docroot ∨
      (envRoot.docroot ++ ['/']).isPrefixOf ['/', 'i'] = true) := by decide

/-- C5 (amended): when a lookup returns a redirected result, exactly one
302 response is emitted, whose Location is the canonicalized physical
directory path relative to the document root — ending in exactly the
separator the resolver appended, with the directory's stat visible at that
path — followed by `?` and the original query string verbatim when one was
recorded; a returned non-redirected result emits no response at all.  The
Location is the canonicalized path, not the original request path. -/
theorem uh_path_lookup_redirect (env : LookupEnv) (url : List Char)
    (res : Option PathInfo) (evs : List (Nat × List Char)) (pi : PathInfo)
    (h : uh_path_lookup env url = (res, evs)) (hres : res = some pi) :
    (pi.redirected = true →
      pi.stat.isDir = true ∧ pi.phys = none ∧
      ∃ physD, evs = [(302, physD.drop env.docroot.length ++ optQuery pi.query)] ∧
        (∃ t, physD = env.docroot ++ t) ∧ physD.getLast? = some '/' ∧
        (env.fs physD = some pi.stat ∨ env.fs physD.dropLast = some pi.stat)) ∧
    (pi.redirected = false → evs = []) := by
  rcases uh_path_lookup_shape env url res evs h with ⟨hnone, _⟩ | ⟨pi', phys0, st, hsome, hpre, hbound, hfs, hbr⟩
  · rw [hres] at hnone
    cases hnone
  · rw [hres] at hsome
    injection hsome with hpi
    subst hpi
    constructor
    · intro hred
      rcases hbr with ⟨hr, _⟩ | ⟨hr, _⟩ | ⟨_, hstat, _, hdir, hphys, hevs⟩
      · rw [hred] at hr
        cases hr
      · rw [hred] at hr
        cases hr
      · subst hstat
        refine ⟨hdir, hphys, mkPhysD phys0, hevs, ?_, mkPhysD_getLast phys0, ?_⟩
        · obtain ⟨t0, rfl⟩ := isPrefixOf_exists env.docroot phys0 hpre
          unfold mkPhysD
          by_cases hlast : (env.docroot ++ t0).getLast? = some '/'
          · rw [if_pos hlast]
            exact ⟨t0, rfl⟩
          · rw [if_neg hlast]
            exact ⟨t0 ++ ['/'], by rw [List.append_assoc]⟩
        · unfold mkPhysD
          by_cases hlast : phys0.getLast? = some '/'
          · rw [if_pos hlast]
            exact Or.inl hfs
          · rw [if_neg hlast]
            right
            rw [List.dropLast_concat]
            exact hfs
    · intro hnred
      rcases hbr with ⟨_, hevs, _⟩ | ⟨_, hevs, _⟩ | ⟨hr, _⟩
      · exact hevs
      · exact hevs
      · rw [hnred] at hr
        cases hr

/-- Witness for C5 (amended): the lookup of `/a/../d` under root `/r`
redirects with a single 302 whose Location is the canonicalized `/d/`. -/
theorem uh_path_lookup_redirect_witness :
    (piRed.redirected = true →
      piRed.stat.isDir = true ∧ piRed.phys = none ∧
      ∃ physD, [(302, ['/', 'd', '/'])] =
          [(302, physD.drop envW.docroot.length ++ optQuery piRed.query)] ∧
        (∃ t, physD = envW.docroot ++ t) ∧ physD.getLast? = some '/' ∧
        (envW.fs physD = some piRed.stat ∨ envW.fs physD.dropLast = some piRed.stat)) ∧
    (piRed.redirected = false → [(302, ['/', 'd', '/'])] = ([] : List (Nat × List Char))) :=
  uh_path_lookup_redirect envW urlTrav (some piRed) [(302, ['/', 'd', '/'])] piRed
    (by decide) rfl

/-- C5 counterexample: for the request `/a/../d` the emitted Location is
the canonicalized `/d/`, not the original request path with a separator
appended (`/a/../d/`). -/
theorem uh_path_lookup_redirect_location_not_original :
    (uh_path_lookup envW urlTrav).2 = [(302, ['/', 'd', '/'])] ∧
    ['/', 'd', '/'] ≠ urlTrav ++ ['/'] := by decide

/-! ## file_write_cb and list_entries claims -/

/-- C9: evaluation of the write callback at the failing input.  A transient
interruption is retried (the next read result is consumed), a zero-byte
read finalizes the request, but a read failure that is not `EINTR` falls
through `if (!r)` (r = -1 is nonzero) into `uh_chunk_write` with the
negative byte count and the loop continues — the error is neither retried
nor treated as end-of-stream. -/
theorem file_write_cb_error_enqueues :
    file_write_cb [ReadRes.err true, ReadRes.ok ['x']] 0 = [FwEvent.chunk 1] ∧
    file_write_cb [ReadRes.ok []] 0 = [FwEvent.done] ∧
    file_write_cb [ReadRes.err false, ReadRes.ok ['x']] 0 =
      [FwEvent.chunk (-1), FwEvent.chunk 1] := by decide

theorem listEntriesGo_filter_dot (fs : List Char → Option Stat)
    (mime : List Char → List Char) (path localp : List Char) :
    ∀ (ents : List DirEnt) (state : List Char × OthBit × List Char),
      listEntriesGo fs mime path localp ents state =
        listEntriesGo fs mime path localp
          (ents.filter (fun e2 => decide (e2.name ≠ ['.']))) state := by
  intro ents
  induction ents with
  | nil => intro state; rfl
  | cons e rest ih =>
    intro state
    by_cases hd : e.name = ['.']
    · rw [listEntriesGo, if_pos hd, List.filter_cons_of_neg (by simp [hd])]
      exact ih state
    · rw [List.filter_cons_of_pos (by simp [hd]), listEntriesGo, if_neg hd,
        listEntriesGo, if_neg hd]
      rcases hfs : fs (localp ++ e.name) with _ | s
      · exact ih state
      · dsimp only
        by_cases hb : bitSet s (if e.isDir then state else
            ([], OthBit.read, mime (localp ++ e.name))).2.1
        · rw [if_pos hb, if_pos hb, ih]
        · rw [if_neg hb, if_neg hb, ih]

theorem listEntriesGo_parent_mem (fs : List Char → Option Stat)
    (mime : List Char → List Char) (path localp : List Char) :
    ∀ (pre post : List DirEnt) (e : DirEnt), (∀ e2 ∈ pre, e2.isDir = true) →
      e.name = ['.', '.'] → e.isDir = true →
      ∀ s, fs (localp ++ ['.', '.']) = some s → s.othExec = true →
      (⟨path ++ ['.', '.'] ++ ['/'], ['.', '.'], dirTypeStr⟩ : Rendered) ∈
        listEntriesGo fs mime path localp (pre ++ e :: post)
          (['/'], OthBit.exec, dirTypeStr) := by
  intro pre
  induction pre with
  | nil =>
    intro post e _ hname hdir s hfs hx
    rw [List.nil_append, listEntriesGo, if_neg (by rw [hname]; decide), hname, hfs]
    simp only [if_pos hdir, bitSet, hx, if_pos rfl]
    exact List.mem_cons_self _ _
  | cons f pre' ih =>
    intro post e hall hname hdir s hfs hx
    have hfdir : f.isDir = true := hall f (List.mem_cons_self f pre')
    have hrest : ∀ e2 ∈ pre', e2.isDir = true :=
      fun e2 h2 => hall e2 (List.mem_cons_of_mem f h2)
    have htail := ih post e hrest hname hdir s hfs hx
    rw [List.cons_append]
    by_cases hd : f.name = ['.']
    · rw [listEntriesGo, if_pos hd]
      exact htail
    · rw [listEntriesGo, if_neg hd]
      rcases hfs2 : fs (localp ++ f.name) with _ | s2
      · exact htail
      · dsimp only
        rw [if_pos hfdir]
        dsimp only
        by_cases hb : bitSet s2 OthBit.exec
        · rw [if_pos hb]
          exact List.mem_cons_of_mem _ htail
        · rw [if_neg hb]
          exact htail

/-- C10: in a generated directory listing only the entry named exactly `.`
is excluded by its name — filtering the self-reference out of the entry
list leaves the rendered output unchanged — while a `..` directory entry
returned by enumeration that passes the other-execute permission check is
rendered as an ordinary linked entry `path ++ ".." ++ "/"`.  The only side
condition is that the entries enumerated before `..` are directories (the
dirs-first sort of `dirent_cmp` guarantees this in the caller, and it keeps
the loop's persistent `mode` variable at `S_IXOTH` when `..` is reached);
the entries after `..` are arbitrary — files may follow. -/
theorem list_entries_dot_parent (fs : List Char → Option Stat)
    (mime : List Char → List Char) (path localp : List Char)
    (pre post : List DirEnt) (e : DirEnt) (hname : e.name = ['.', '.'])
    (hdir : e.isDir = true) (hpre : ∀ e2 ∈ pre, e2.isDir = true) (s : Stat)
    (hfs : fs (localp ++ ['.', '.']) = some s) (hx : s.othExec = true) :
    list_entries fs mime path localp (pre ++ e :: post) =
      list_entries fs mime path localp
        ((pre ++ e :: post).filter (fun e2 => decide (e2.name ≠ ['.']))) ∧
    (⟨path ++ ['.', '.'] ++ ['/'], ['.', '.'], dirTypeStr⟩ : Rendered) ∈
      list_entries fs mime path localp (pre ++ e :: post) := by
  constructor
  · unfold list_entries
    exact listEntriesGo_filter_dot fs mime path localp (pre ++ e :: post) _
  · unfold list_entries
    exact listEntriesGo_parent_mem fs mime path localp pre post e hpre hname hdir s hfs hx

/-- Witness for C10 at a fixture listing whose `..` is followed by a
regular file, as the dirs-first sort produces. -/
theorem list_entries_dot_parent_witness :
    list_entries fsLs mimeW ['/', 'p', '/'] ['/', 'r', '/']
        [⟨['.', '.'], true⟩, ⟨['f'], false⟩] =
      list_entries fsLs mimeW ['/', 'p', '/'] ['/', 'r', '/']
        (([⟨['.', '.'], true⟩, ⟨['f'], false⟩] : List DirEnt).filter
          (fun e2 => decide (e2.name ≠ ['.']))) ∧
    (⟨['/', 'p', '/'] ++ ['.', '.'] ++ ['/'], ['.', '.'], dirTypeStr⟩ : Rendered) ∈
      list_entries fsLs mimeW ['/', 'p', '/'] ['/', 'r', '/']
        [⟨['.', '.'], true⟩, ⟨['f'], false⟩] :=
  list_entries_dot_parent fsLs mimeW ['/', 'p', '/'] ['/', 'r', '/']
    [] [⟨['f'], false⟩] ⟨['.', '.'], true⟩ rfl rfl
    (by intro e2 h2; cases h2)
    statDir (by decide) rfl

end Uhttpd
